import Mathlib

/-!
Verification of the GLOFRIM LFP BMI adapter (`glofrim/lfp_bmi.py`) against its
natural-language specification.

The development shallowly embeds the adapter's core:
  * `get_mask` — the per-variable validity-mask derivation (numpy `vstack` /
    `hstack` padding plus `scipy.signal.convolve2d` in mode `full` with a
    two-element kernel, cast back to boolean);
  * `update` / `update_until` — the time-control loop over an abstract engine;
  * `get_value` / `set_value` — the masked variable exchange with NaN policy;
  * attribute-name normalization and the `ParConfigParser` read/write pair.

2-D numpy boolean arrays are modelled by `BoolArray`: explicit dimensions plus
a total indexing function (entries outside the bounds are irrelevant; every
access the code performs is bounds-checked through `BoolArray.getB`, matching
how `convolve2d` treats out-of-range positions as zero).
-/

/-- A 2-D boolean numpy array: shape `(rows, cols)` plus an indexing
function.  Only entries with `i < rows` and `j < cols` are meaningful. -/
structure BoolArray where
  rows : Nat
  cols : Nat
  entry : Nat → Nat → Bool

/-- Bounds-checked read: the value `convolve2d` sees at position `(i, j)`
(zero — here `false` — outside the array). -/
def BoolArray.getB (a : BoolArray) (i j : Nat) : Bool :=
  decide (i < a.rows) && decide (j < a.cols) && a.entry i j

/-- Source: `np.vstack([self.grid.mask, np.zeros((1, W))])` — append one row
of `false` below the mask. -/
def vstackZeroRow (a : BoolArray) : BoolArray :=
  ⟨a.rows + 1, a.cols, fun i j => if i < a.rows then a.entry i j else false⟩

/-- Source: `np.hstack([self.grid.mask, np.zeros((H, 1))])` — append one
column of `false` to the right of the mask. -/
def hstackZeroCol (a : BoolArray) : BoolArray :=
  ⟨a.rows, a.cols + 1, fun i j => if j < a.cols then a.entry i j else false⟩

/-- Numeric value of a boolean cell, as used by the integer convolution. -/
def b2n (b : Bool) : Nat := if b then 1 else 0

/-- Source: `np.array(convolve2d(mask, np.array([[1, 1]])), dtype='bool')`.
`convolve2d` defaults to mode `full`, so the output has shape
`(rows, cols + 1)` and `out[i][j] = in[i][j] + in[i][j-1]` (missing positions
contribute zero); the cast to `bool` is the nonzero test on the sum. -/
def convolveRow11 (a : BoolArray) : BoolArray :=
  ⟨a.rows, a.cols + 1, fun i j =>
    decide (b2n (a.getB i j) + (if 1 ≤ j then b2n (a.getB i (j - 1)) else 0) ≠ 0)⟩

/-- Source: `np.array(convolve2d(mask, np.array([[1], [1]])), dtype='bool')`,
mode `full`: output shape `(rows + 1, cols)` and
`out[i][j] = in[i][j] + in[i-1][j]`, then the nonzero test. -/
def convolveCol11 (a : BoolArray) : BoolArray :=
  ⟨a.rows + 1, a.cols, fun i j =>
    decide (b2n (a.getB i j) + (if 1 ≤ i then b2n (a.getB (i - 1) j) else 0) ≠ 0)⟩

/-- Source: `LFP.get_mask` (`lfp_bmi.py`, lines 168-180).  For
`Qx`/`QxSGold` the grid mask is padded by one zero row below and convolved
with the horizontal kernel `[[1, 1]]`; for `Qy`/`QySGold` it is padded by one
zero column on the right and convolved with the vertical kernel
`[[1], [1]]`; every other variable name returns the grid mask unchanged. -/
def get_mask (grid : BoolArray) (long_var_name : String) : BoolArray :=
  if long_var_name = "Qx" ∨ long_var_name = "QxSGold" ∨
      long_var_name = "Qy" ∨ long_var_name = "QySGold" then
    if long_var_name = "Qx" ∨ long_var_name = "QxSGold" then
      convolveRow11 (vstackZeroRow grid)
    else
      convolveCol11 (hstackZeroCol grid)
  else grid

theorem getB_vstackZeroRow (a : BoolArray) (i j : Nat) :
    (vstackZeroRow a).getB i j = a.getB i j := by
  by_cases h : i < a.rows
  · simp [BoolArray.getB, vstackZeroRow, h, Nat.lt_succ_of_lt]
  · simp [BoolArray.getB, vstackZeroRow, h]

theorem getB_hstackZeroCol (a : BoolArray) (i j : Nat) :
    (hstackZeroCol a).getB i j = a.getB i j := by
  by_cases h : j < a.cols
  · simp [BoolArray.getB, hstackZeroCol, h, Nat.lt_succ_of_lt]
  · simp [BoolArray.getB, hstackZeroCol, h]

theorem sum_nonzero_or (x y : Bool) :
    decide (b2n x + b2n y ≠ 0) = (x || y) := by
  cases x <;> cases y <;> simp [b2n]

theorem sum_nonzero_single (x : Bool) :
    decide (b2n x ≠ 0) = x := by
  cases x <;> simp [b2n]

theorem convolveRow11_entry (a : BoolArray) (i j : Nat) :
    (convolveRow11 a).entry i j = (a.getB i j || (decide (1 ≤ j) && a.getB i (j - 1))) := by
  by_cases h : 1 ≤ j
  · simpa [convolveRow11, h] using sum_nonzero_or (a.getB i j) (a.getB i (j - 1))
  · simp [convolveRow11, h]
    cases a.getB i j <;> simp [b2n]

theorem convolveCol11_entry (a : BoolArray) (i j : Nat) :
    (convolveCol11 a).entry i j = (a.getB i j || (decide (1 ≤ i) && a.getB (i - 1) j)) := by
  by_cases h : 1 ≤ i
  · simpa [convolveCol11, h] using sum_nonzero_or (a.getB i j) (a.getB (i - 1) j)
  · simp [convolveCol11, h]
    cases a.getB i j <;> simp [b2n]

/-- C1 (amended): for `Qx`/`QxSGold` and `Qy`/`QySGold` alike, `get_mask`
returns a mask of shape `(H + 1, W + 1)` (one extra row AND one extra
column); a cell `(i, j)` of the `Qx`-type mask is true exactly when one of
the in-bounds grid cells `(i, j)` or `(i, j - 1)` is true (horizontal OR),
and a cell of the `Qy`-type mask is true exactly when one of the in-bounds
grid cells `(i, j)` or `(i - 1, j)` is true (vertical OR); for every other
variable name the grid mask is returned unchanged. -/
theorem get_mask_characterization (g : BoolArray) (v : String) (i j : Nat) :
    (get_mask g v).rows =
      (if v = "Qx" ∨ v = "QxSGold" ∨ v = "Qy" ∨ v = "QySGold" then g.rows + 1 else g.rows) ∧
    (get_mask g v).cols =
      (if v = "Qx" ∨ v = "QxSGold" ∨ v = "Qy" ∨ v = "QySGold" then g.cols + 1 else g.cols) ∧
    (get_mask g v).entry i j =
      (if v = "Qx" ∨ v = "QxSGold" then
        (g.getB i j || (decide (1 ≤ j) && g.getB i (j - 1)))
      else if v = "Qy" ∨ v = "QySGold" then
        (g.getB i j || (decide (1 ≤ i) && g.getB (i - 1) j))
      else g.entry i j) := by
  by_cases hx : v = "Qx" ∨ v = "QxSGold"
  · have hm : v = "Qx" ∨ v = "QxSGold" ∨ v = "Qy" ∨ v = "QySGold" := by tauto
    simp only [get_mask, if_pos hm, if_pos hx, convolveRow11_entry]
    refine ⟨rfl, rfl, ?_⟩
    rw [getB_vstackZeroRow, getB_vstackZeroRow]
  · by_cases hy : v = "Qy" ∨ v = "QySGold"
    · have hm : v = "Qx" ∨ v = "QxSGold" ∨ v = "Qy" ∨ v = "QySGold" := by tauto
      simp only [get_mask, if_pos hm, if_neg hx, if_pos hy, convolveCol11_entry]
      refine ⟨rfl, rfl, ?_⟩
      rw [getB_hstackZeroCol, getB_hstackZeroCol]
    · have hm : ¬ (v = "Qx" ∨ v = "QxSGold" ∨ v = "Qy" ∨ v = "QySGold") := by tauto
      simp [get_mask, hm, hx, hy]

/-- C1 counterexample: over the all-true 1×1 grid mask, the claim predicts
the `Qx` mask has shape `(2, 1)` with cell `(1, 0)` true (OR over the
vertically adjacent centers `(0, 0)` and `(1, 0)`); the code actually
returns shape `(2, 2)` with cell `(1, 0)` false (the padded bottom row). -/
theorem get_mask_claim_counterexample :
    (get_mask ⟨1, 1, fun _ _ => true⟩ "Qx").cols = 2 ∧
    ¬ (get_mask ⟨1, 1, fun _ _ => true⟩ "Qx").cols = 1 ∧
    (get_mask ⟨1, 1, fun _ _ => true⟩ "Qx").entry 1 0 = false := by
  refine ⟨rfl, by decide, rfl⟩

/-!
Time control (`LFP.update`, `LFP.update_until`, lines 83-107).

After `initialize_model` the adapter's times are absolute datetimes; the
time unit is fixed to seconds, so we model datetimes and timedeltas as
integer second counts.  The engine (`self._bmi`) is abstracted as a map
`eng : Nat → Int` giving the current-time offset it reports after `k`
native `update()` calls in total; `stepsDone` counts those calls.
`get_current_time` (initialized branch, lines 135-138) returns
`self._startTime + timedelta(seconds=self._bmi.get_current_time())`.

The Python `while` loop has no bound of its own, so the model runs it on
explicit fuel; `StepResult.fuelOut` marks fuel exhaustion (a model artifact,
not a code behavior) and every theorem is about runs that finish.
-/

/-- Mutable adapter time state: `self._t`, `self._startTime`,
`self._endTime`, `self._dt` (all in seconds) plus the total count of native
engine steps taken so far. -/
structure AdapterState where
  t : Int
  startTime : Int
  endTime : Int
  dt : Int
  stepsDone : Nat
deriving DecidableEq

inductive StepResult where
  /-- the method returned normally, leaving this state -/
  | ok (st : AdapterState)
  /-- the method raised an exception with this message -/
  | err (msg : String)
  /-- model fuel ran out before the loop condition turned false -/
  | fuelOut
deriving DecidableEq

/-- Source: `LFP.get_current_time`, initialized branch — the reference start
time plus the engine's reported current offset. -/
def getCurrentTime (eng : Nat → Int) (st : AdapterState) : Int :=
  st.startTime + eng st.stepsDone

/-- Source: the step-duration choice of `update` (lines 87-94): the
caller-supplied duration if given and different from the last-known model
timestep (`dt != self._dt.total_seconds()`), else the last-known model
timestep `self._dt`. -/
def chosenDur (modelDt : Int) (dtArg : Option Int) : Int :=
  match dtArg with
  | some d => if d ≠ modelDt then d else modelDt
  | none => modelDt

/-- The `while self._t < t_next` loop of `update` (lines 97-100): perform one
native engine step, refresh `self._t` from the engine, repeat.  Arguments:
start time `s`, loop target `tN`, remaining fuel, current `self._t`, native
steps taken so far.  Returns the final `(self._t, stepsDone)`. -/
def updateLoop (eng : Nat → Int) (s tN : Int) : Nat → Int → Nat → Option (Int × Nat)
  | fuel, t, k =>
    if t < tN then
      match fuel with
      | 0 => none
      | f + 1 => updateLoop eng s tN f (s + eng (k + 1)) (k + 1)
    else
      some (t, k)

/-- Source: `LFP.update` (lines 83-101).  Raises when
`self._t >= self._endTime`; otherwise picks the step duration from the
caller argument and the model timestep, sets
`t_next = self.get_current_time() + dt` and runs the native-step loop. -/
def update (eng : Nat → Int) (fuel : Nat) (st : AdapterState) (dtArg : Option Int) : StepResult :=
  if st.endTime ≤ st.t then
    .err "endTime already reached, model not updated"
  else
    let tNext := getCurrentTime eng st + chosenDur st.dt dtArg
    match updateLoop eng st.startTime tNext fuel st.t st.stepsDone with
    | none => .fuelOut
    | some (t', k') => .ok { st with t := t', stepsDone := k' }

/-- The `while self._t < t` loop of `update_until` (lines 106-107). -/
def untilLoop (eng : Nat → Int) (fuel : Nat) (tTarget : Int) (dtArg : Option Int) :
    Nat → AdapterState → StepResult
  | 0, st => if st.t < tTarget then .fuelOut else .ok st
  | fU + 1, st =>
    if st.t < tTarget then
      match update eng fuel st dtArg with
      | .ok st' => untilLoop eng fuel tTarget dtArg fU st'
      | r => r
    else .ok st

/-- Source: `LFP.update_until` (lines 103-107). -/
def update_until (eng : Nat → Int) (fuel fuelU : Nat) (st : AdapterState)
    (tTarget : Int) (dtArg : Option Int) : StepResult :=
  if tTarget < st.t ∨ st.endTime < tTarget then
    .err "wrong time input: smaller than model time or larger than endTime"
  else untilLoop eng fuel tTarget dtArg fuelU st

theorem updateLoop_sound (eng : Nat → Int) (s tN : Int) :
    ∀ (fuel : Nat) (t : Int) (k : Nat) (t' : Int) (k' : Nat),
      updateLoop eng s tN fuel t k = some (t', k') →
      ∃ n, k' = k + n ∧
        t' = (if n = 0 then t else s + eng (k + n)) ∧
        tN ≤ t' ∧
        (∀ m, 0 < m → m < n → s + eng (k + m) < tN) ∧
        (0 < n → t < tN) := by
  intro fuel
  induction fuel with
  | zero =>
    intro t k t' k' h
    rw [updateLoop] at h
    by_cases hlt : t < tN
    · simp [hlt] at h
    · simp [hlt] at h
      refine ⟨0, by omega, by simp [h.1.symm], by omega, by omega, by omega⟩
  | succ f ih =>
    intro t k t' k' h
    rw [updateLoop] at h
    by_cases hlt : t < tN
    · simp only [if_pos hlt] at h
      obtain ⟨n₁, hk, ht, hge, hmid, hfirst⟩ := ih (s + eng (k + 1)) (k + 1) t' k' h
      refine ⟨n₁ + 1, by omega, ?_, hge, ?_, fun _ => hlt⟩
      · by_cases hn : n₁ = 0
        · subst hn
          simp at hk ht ⊢
          rw [ht]
        · rw [if_neg hn] at ht
          have : k + 1 + n₁ = k + (n₁ + 1) := by omega
          rw [this] at ht
          simp [ht]
      · intro m hm0 hmn
        rcases Nat.exists_eq_add_of_lt hm0 with ⟨m₁, hm₁⟩
        by_cases hm1 : m = 1
        · subst hm1
          have := hfirst (by omega)
          simpa using this
        · have h2 : 0 < m - 1 := by omega
          have h3 : m - 1 < n₁ := by omega
          have := hmid (m - 1) h2 h3
          have heq : k + 1 + (m - 1) = k + m := by omega
          rwa [heq] at this
    · simp [hlt] at h
      refine ⟨0, by omega, by simp [h.1.symm], by omega, by omega, by omega⟩

theorem update_ok_spec (eng : Nat → Int) (fuel : Nat) (st st' : AdapterState)
    (dtArg : Option Int) (hrun : update eng fuel st dtArg = .ok st') :
    st.t < st.endTime ∧
    st'.startTime = st.startTime ∧ st'.endTime = st.endTime ∧ st'.dt = st.dt ∧
    ∃ n, st'.stepsDone = st.stepsDone + n ∧
      st'.t = (if n = 0 then st.t
               else st.startTime + eng (st.stepsDone + n)) ∧
      getCurrentTime eng st + chosenDur st.dt dtArg ≤ st'.t ∧
      (∀ m, 0 < m → m < n →
        st.startTime + eng (st.stepsDone + m) < getCurrentTime eng st + chosenDur st.dt dtArg) ∧
      (0 < n → st.t < getCurrentTime eng st + chosenDur st.dt dtArg) := by
  unfold update at hrun
  by_cases hend : st.endTime ≤ st.t
  · simp [hend] at hrun
  · simp only [if_neg hend] at hrun
    refine ⟨by omega, ?_⟩
    cases hloop : updateLoop eng st.startTime
        (getCurrentTime eng st + chosenDur st.dt dtArg) fuel st.t st.stepsDone with
    | none =>
      rw [hloop] at hrun
      exact absurd hrun (by simp)
    | some p =>
      obtain ⟨t', k'⟩ := p
      rw [hloop] at hrun
      simp only [StepResult.ok.injEq] at hrun
      obtain ⟨n, hk, ht, hge, hmid, hfirst⟩ := updateLoop_sound eng st.startTime _ fuel
        st.t st.stepsDone t' k' hloop
      subst hrun
      exact ⟨rfl, rfl, rfl, n, hk, ht, hge, hmid, hfirst⟩

/-- C2: on a successfully finishing run of `update` from a state with
current time strictly before end time, the step duration is the
caller-supplied `dt` when given and different from the last-known model
timestep and the model timestep otherwise; the loop target is
`get_current_time() + duration`; the engine's native step is invoked some
`n ≥ 0` times with `self._t` refreshed from the engine after each step; the
run stops exactly when the current time reaches the target: the final time
is at or past the target while the time after every earlier iteration
(including the initial time, when any step is taken) was strictly below
it.  Start time, end time and the stored timestep are untouched. -/
theorem update_step_semantics (eng : Nat → Int) (fuel : Nat) (st st' : AdapterState)
    (dtArg : Option Int) (hrun : update eng fuel st dtArg = .ok st') :
    st.t < st.endTime ∧
    st'.startTime = st.startTime ∧ st'.endTime = st.endTime ∧ st'.dt = st.dt ∧
    ∃ n, st'.stepsDone = st.stepsDone + n ∧
      st'.t = (if n = 0 then st.t
               else st.startTime + eng (st.stepsDone + n)) ∧
      getCurrentTime eng st + chosenDur st.dt dtArg ≤ st'.t ∧
      (∀ m, 0 < m → m < n →
        st.startTime + eng (st.stepsDone + m) < getCurrentTime eng st + chosenDur st.dt dtArg) ∧
      (0 < n → st.t < getCurrentTime eng st + chosenDur st.dt dtArg) :=
  update_ok_spec eng fuel st st' dtArg hrun

/-- Engine for concrete runs: the current-time offset after `k` native steps
is `10 k` seconds (a constant 10-second native timestep). -/
def engW : Nat → Int := fun k => 10 * (k : Int)

/-- Fresh initialized state: start 0, end 100, model timestep 10 s. -/
def stW : AdapterState := ⟨0, 0, 100, 10, 0⟩

/-- State after one native step of `engW` from `stW`. -/
def stW' : AdapterState := ⟨10, 0, 100, 10, 1⟩

theorem update_step_semantics_witness :
    update engW 3 stW none = StepResult.ok stW' ∧
    (stW.t < stW.endTime ∧
     stW'.startTime = stW.startTime ∧ stW'.endTime = stW.endTime ∧ stW'.dt = stW.dt ∧
     ∃ n, stW'.stepsDone = stW.stepsDone + n ∧
       stW'.t = (if n = 0 then stW.t
                 else stW.startTime + engW (stW.stepsDone + n)) ∧
       getCurrentTime engW stW + chosenDur stW.dt none ≤ stW'.t ∧
       (∀ m, 0 < m → m < n →
         stW.startTime + engW (stW.stepsDone + m) < getCurrentTime engW stW + chosenDur stW.dt none) ∧
       (0 < n → stW.t < getCurrentTime engW stW + chosenDur stW.dt none)) :=
  ⟨by decide, update_step_semantics engW 3 stW stW' none (by decide)⟩

/-- C3: calling `update` from any state whose current time has reached or
passed the end time raises the already-finished error before the engine is
touched; no native step is taken and, the method being aborted by the
raise, the adapter state is left unchanged. -/
theorem update_already_finished (eng : Nat → Int) (fuel : Nat) (st : AdapterState)
    (dtArg : Option Int) (h : st.endTime ≤ st.t) :
    update eng fuel st dtArg = .err "endTime already reached, model not updated" := by
  simp [update, h]

/-- State whose current time already equals its end time. -/
def stF : AdapterState := ⟨100, 0, 100, 10, 4⟩

theorem update_already_finished_witness :
    stF.endTime ≤ stF.t ∧
    update engW 0 stF none = .err "endTime already reached, model not updated" :=
  ⟨by decide, update_already_finished engW 0 stF none (by decide)⟩

theorem update_lower_bound (eng : Nat → Int) (fuel : Nat) (st st' : AdapterState)
    (dtArg : Option Int) (heng : ∀ k, 0 ≤ eng k) (h0 : st.startTime ≤ st.t)
    (h : update eng fuel st dtArg = .ok st') : st'.startTime ≤ st'.t := by
  obtain ⟨-, hstart, -, -, n, -, ht, -, -, -⟩ :=
    update_ok_spec eng fuel st st' dtArg h
  rw [hstart, ht]
  by_cases hn : n = 0
  · simpa [hn] using h0
  · have := heng (st.stepsDone + n)
    simp [hn]
    omega

theorem untilLoop_lower_bound (eng : Nat → Int) (fuel : Nat) (tT : Int) (dtArg : Option Int)
    (heng : ∀ k, 0 ≤ eng k) :
    ∀ (fuelU : Nat) (st st' : AdapterState), st.startTime ≤ st.t →
      untilLoop eng fuel tT dtArg fuelU st = .ok st' → st'.startTime ≤ st'.t := by
  intro fuelU
  induction fuelU with
  | zero =>
    intro st st' h0 h
    rw [untilLoop] at h
    by_cases hlt : st.t < tT
    · simp [hlt] at h
    · simp only [if_neg hlt, StepResult.ok.injEq] at h
      rwa [h] at h0
  | succ fU ih =>
    intro st st' h0 h
    rw [untilLoop] at h
    by_cases hlt : st.t < tT
    · simp only [if_pos hlt] at h
      cases hu : update eng fuel st dtArg with
      | ok st₁ =>
        rw [hu] at h
        exact ih st₁ st' (update_lower_bound eng fuel st st₁ dtArg heng h0 hu) h
      | err m =>
        rw [hu] at h
        exact absurd h (by simp)
      | fuelOut =>
        rw [hu] at h
        exact absurd h (by simp)
    · simp only [if_neg hlt, StepResult.ok.injEq] at h
      rwa [h] at h0

/-- C9 (amended): once initialized, the lower half of the invariant is
preserved — if `startTime ≤ currentTime` holds and the engine reports
nonnegative time offsets, every finishing `update` and `update_until` call
leaves a state with `startTime ≤ currentTime`.  The upper half
`currentTime ≤ endTime` is NOT an invariant of `update`: the loop target
`current + dt` may lie beyond the end time, in which case `update` steps the
model past `endTime` (see the counterexample). -/
theorem time_lower_bound_preserved (eng : Nat → Int) (fuel : Nat) (st : AdapterState)
    (dtArg : Option Int) (heng : ∀ k, 0 ≤ eng k) (h0 : st.startTime ≤ st.t) :
    (∀ st', update eng fuel st dtArg = .ok st' → st'.startTime ≤ st'.t) ∧
    (∀ fuelU tTarget st', update_until eng fuel fuelU st tTarget dtArg = .ok st' →
      st'.startTime ≤ st'.t) := by
  constructor
  · intro st' h
    exact update_lower_bound eng fuel st st' dtArg heng h0 h
  · intro fuelU tTarget st' h
    rw [update_until] at h
    by_cases hrange : tTarget < st.t ∨ st.endTime < tTarget
    · simp [hrange] at h
    · rw [if_neg hrange] at h
      exact untilLoop_lower_bound eng fuel tTarget dtArg heng fuelU st st' h0 h

theorem time_lower_bound_witness :
    stW.startTime ≤ stW.t ∧
    ((∀ st', update engW 3 stW none = .ok st' → st'.startTime ≤ st'.t) ∧
     (∀ fuelU tTarget st', update_until engW 3 fuelU stW tTarget none = .ok st' →
       st'.startTime ≤ st'.t)) :=
  ⟨by decide,
   time_lower_bound_preserved engW 3 stW none (fun k => by simp only [engW]; omega) (by decide)⟩

/-- State with end time 10 s after start, model timestep 10 s. -/
def stC9 : AdapterState := ⟨0, 0, 10, 10, 0⟩

/-- State reached from `stC9` by `update` with a caller-supplied duration of
100 s: current time 100 is far past the end time 10. -/
def stC9' : AdapterState := ⟨100, 0, 10, 10, 10⟩

/-- C9 counterexample: from a state with `currentTime = startTime = 0` and
`endTime = 10`, the call `update(dt=100)` finishes normally in a state whose
current time 100 exceeds the end time 10 — the claimed invariant
`currentTime ≤ endTime` fails after an `update` call. -/
theorem update_violates_end_invariant :
    update engW 12 stC9 (some 100) = StepResult.ok stC9' ∧ stC9'.endTime < stC9'.t :=
  ⟨by decide, by decide⟩

/-!
Variable exchange (`LFP.get_value`, `LFP.set_value`, lines 182-198).

Array cells are floats that are either an ordinary number or NaN; we model a
cell as `Val` (`nan` or `num q`).  2-D float arrays are indexing functions
`Nat → Nat → Val` over the variable's native shape (the shape of the derived
mask).  The per-variable dtype conversion `astype(self.get_var_type(name))`
comes from the `GBmi` base class, which is not part of this file's source;
modelled from the spec ("cast to the engine-declared dtype for that
variable") as an abstract numeric conversion `cast : Int → Int` applied to
every non-NaN cell value.

Python mutation is made explicit: `set_value` returns the pair
(caller's array after the in-place `src[mask & isnan(src)] = 0.` assignment,
new engine buffer written by `get_var(name)[:] = ...`).
-/

/-- A float cell: NaN or a finite numeric value. -/
inductive Val where
  | nan
  | num (q : Int)
deriving DecidableEq

/-- Source: `LFP.get_value` (lines 182-186): copy the engine's array for the
variable, set every cell where the derived mask is false to NaN, return the
copy. -/
def get_value (grid : BoolArray) (long_var_name : String) (buf : Nat → Nat → Val) :
    Nat → Nat → Val :=
  fun i j => if (get_mask grid long_var_name).entry i j then buf i j else Val.nan

/-- Source: `LFP.set_value` (lines 191-198).  First
`src[mask & np.isnan(src)] = 0.` zeroes, in the caller's own array, every
NaN cell inside the mask; then
`np.where(np.isnan(src), fill_value, src).astype(...)` replaces the
remaining NaN cells by `fill_value` and converts every cell to the
variable's dtype; finally the result is written element-wise over the
engine's live buffer.  Returns (mutated caller array, new engine buffer). -/
def set_value (grid : BoolArray) (long_var_name : String) (cast : Int → Int)
    (fill_value : Int) (src : Nat → Nat → Val) :
    (Nat → Nat → Val) × (Nat → Nat → Val) :=
  let mask := get_mask grid long_var_name
  let src1 := fun i j =>
    if mask.entry i j ∧ src i j = Val.nan then Val.num 0 else src i j
  let src2 := fun i j =>
    Val.num (cast (match src1 i j with
      | Val.nan => fill_value
      | Val.num q => q))
  (src1, src2)

/-- C7: for an input array containing no NaN cell, writing it with
`set_value` and reading the same variable back with `get_value` yields, at
every position where the variable's derived mask is true, exactly the input
value converted to the variable's declared numeric type. -/
theorem set_then_get_value (grid : BoolArray) (long_var_name : String)
    (cast : Int → Int) (fill_value : Int) (src : Nat → Nat → Val)
    (_hnan : ∀ a b, src a b ≠ Val.nan) (i j : Nat) (q : Int)
    (hmask : (get_mask grid long_var_name).entry i j = true)
    (hval : src i j = Val.num q) :
    get_value grid long_var_name
      ((set_value grid long_var_name cast fill_value src).2) i j = Val.num (cast q) := by
  simp [get_value, set_value, hmask, hval]

/-- All-true 1×1 grid for concrete variable-exchange runs. -/
def gW : BoolArray := ⟨1, 1, fun _ _ => true⟩

/-- Constant all-7 caller array. -/
def srcW : Nat → Nat → Val := fun _ _ => Val.num 7

/-- Constant all-NaN caller array. -/
def srcN : Nat → Nat → Val := fun _ _ => Val.nan

theorem set_then_get_value_witness :
    (∀ a b, srcW a b ≠ Val.nan) ∧
    (get_mask gW "H").entry 0 0 = true ∧
    srcW 0 0 = Val.num 7 ∧
    get_value gW "H" ((set_value gW "H" (fun q => q + 1) 0 srcW).2) 0 0 = Val.num 8 :=
  ⟨fun _ _ => by simp [srcW], by decide, rfl,
   set_then_get_value gW "H" (fun q => q + 1) 0 srcW
     (fun _ _ => by simp [srcW]) 0 0 7 (by decide) rfl⟩

/-- C10: `set_value` mutates the caller-supplied array in place — after the
call, every position where the variable's derived mask is true and the
caller's value was NaN holds `0` in the caller's own array (the first
component of the model's result), before the sanitized values reach the
engine buffer. -/
theorem set_value_mutates_caller (grid : BoolArray) (long_var_name : String)
    (cast : Int → Int) (fill_value : Int) (src : Nat → Nat → Val) (i j : Nat)
    (hmask : (get_mask grid long_var_name).entry i j = true)
    (hnan : src i j = Val.nan) :
    (set_value grid long_var_name cast fill_value src).1 i j = Val.num 0 := by
  simp [set_value, hmask, hnan]

theorem set_value_mutates_caller_witness :
    (get_mask gW "H").entry 0 0 = true ∧
    srcN 0 0 = Val.nan ∧
    (set_value gW "H" (fun q => q) 5 srcN).1 0 0 = Val.num 0 :=
  ⟨by decide, rfl,
   set_value_mutates_caller gW "H" (fun q => q) 5 srcN 0 0 (by decide) rfl⟩

/-!
Attribute-name normalization (`LFP.get_attribute_value` /
`LFP.set_attribute_value`, lines 269-287).

Attribute names are lists of characters.  The code computes
`'general:{}'.format(attribute_name.split(':')[1])` when the name contains
the delimiter, else `'general:{}'.format(attribute_name)`; `splitColon`
mirrors Python's `str.split(':')` (fields between every colon, empty fields
preserved).
-/

/-- Python `str.split(':')`: the (always nonempty) list of fields between
the colons. -/
def splitColon : List Char → List (List Char)
  | [] => [[]]
  | c :: cs =>
    if c = ':' then [] :: splitColon cs
    else
      match splitColon cs with
      | f :: rest => (c :: f) :: rest
      | [] => [[c]]

/-- Source: the name normalization shared by `get_attribute_value` and
`set_attribute_value`: a name without `':'` is prefixed with `general:`;
a name with `':'` is replaced by `general:` followed by element 1 of its
colon-split (the field between the first and second colon). -/
def normalizeAttr (attribute_name : List Char) : List Char :=
  if attribute_name.contains ':' then
    "general:".toList ++ ((splitColon attribute_name).getD 1 [])
  else
    "general:".toList ++ attribute_name

theorem splitColon_ne_nil (l : List Char) : splitColon l ≠ [] := by
  induction l with
  | nil => simp [splitColon]
  | cons c cs ih =>
    rw [splitColon]
    by_cases h : c = ':'
    · simp [h]
    · simp only [if_neg h]
      cases hs : splitColon cs with
      | nil => simp
      | cons f rest => simp

theorem splitColon_append_colon (p r : List Char) (hp : ¬ p.contains ':' = true) :
    splitColon (p ++ ':' :: r) = p :: splitColon r := by
  induction p with
  | nil => simp [splitColon]
  | cons c cs ih =>
    have hfacts : ¬ ':' = c ∧ ':' ∉ cs := by
      simpa using hp
    have hc : ¬ c = ':' := fun hcc => hfacts.1 hcc.symm
    have hcs : ¬ cs.contains ':' = true := by
      simp
      exact hfacts.2
    rw [List.cons_append, splitColon, if_neg hc, ih hcs]

/-- C6 (amended): a supplied name with no delimiter is prefixed with the
fixed label `general`; a supplied name of the form `prefixPart:rest` (the
prefix part itself delimiter-free) normalizes to `general:` followed by the
part of `rest` before its next delimiter — i.e. the field between the first
and second `':'` of the supplied name, NOT everything after the first
delimiter.  Consequently two names differing only in their supplied prefix
resolve to the same stored attribute, and `get_attribute_value` /
`set_attribute_value` agree on the lookup key. -/
theorem normalizeAttr_characterization (p₁ p₂ r n : List Char)
    (h₁ : ¬ p₁.contains ':' = true) (h₂ : ¬ p₂.contains ':' = true)
    (hn : ¬ n.contains ':' = true) :
    normalizeAttr (p₁ ++ ':' :: r) =
      "general:".toList ++ ((splitColon r).headD []) ∧
    normalizeAttr (p₁ ++ ':' :: r) = normalizeAttr (p₂ ++ ':' :: r) ∧
    normalizeAttr n = "general:".toList ++ n := by
  have key : ∀ p : List Char, ¬ p.contains ':' = true →
      normalizeAttr (p ++ ':' :: r) = "general:".toList ++ ((splitColon r).headD []) := by
    intro p hp
    have hmem : (p ++ ':' :: r).contains ':' = true := by
      simp
    rw [normalizeAttr, if_pos hmem, splitColon_append_colon p r hp]
    cases hs : splitColon r with
    | nil => exact absurd hs (splitColon_ne_nil r)
    | cons f rest => simp
  refine ⟨key p₁ h₁, (key p₁ h₁).trans (key p₂ h₂).symm, ?_⟩
  rw [normalizeAttr, if_neg]
  exact hn

/-- C6 counterexample: for the supplied name `a:b:c` (which contains the
delimiter), the claim predicts the lookup key `general:` + `b:c` (everything
after the first delimiter); the code actually keeps only `split(':')[1]`,
producing `general:b`. -/
theorem normalizeAttr_claim_counterexample :
    normalizeAttr "a:b:c".toList = "general:b".toList ∧
    ¬ normalizeAttr "a:b:c".toList = "general:b:c".toList := by
  constructor
  · decide
  · decide

theorem normalizeAttr_characterization_witness :
    (¬ ("ns1".toList).contains ':') ∧ (¬ ("ns2".toList).contains ':') ∧
    (¬ ("refdate".toList).contains ':') ∧
    (normalizeAttr ("ns1".toList ++ ':' :: "refdate".toList) =
      "general:".toList ++ ((splitColon "refdate".toList).headD []) ∧
     normalizeAttr ("ns1".toList ++ ':' :: "refdate".toList) =
      normalizeAttr ("ns2".toList ++ ':' :: "refdate".toList) ∧
     normalizeAttr "refdate".toList = "general:".toList ++ "refdate".toList) :=
  ⟨by decide, by decide, by decide,
   normalizeAttr_characterization "ns1".toList "ns2".toList "refdate".toList "refdate".toList
     (by decide) (by decide) (by decide)⟩

/-!
Configuration attribute persistence (`LFP.set_end_time`, lines 246-259).

Datetimes are modelled as integer second offsets (the adapter's fixed time
unit).  The code computes, for `d = end_time - refdate` (a Python
`timedelta`), `TStop = d.seconds + d.days * 86400` where `timedelta`
normalizes `days = floor(d / 86400)` and `seconds = d mod 86400 ∈ [0, 86400)`,
then formats it with `'{:.0f}'` (the decimal integer string) and stores it
via `set_attribute_value('sim_time', TStop)`.

`glib.configset` / `glib.configget` live in `glofrim.glofrim_lib`, which is
not part of this file's source.
-/

/-- A configuration record: ordered association list from (normalized)
attribute name to value string. -/
abbrev Config := List (List Char × List Char)

/-- Modelled from the spec: `glofrim.glofrim_lib.configset` — missing from
the source tree; per the spec setters "persist their result into
configuration attributes", so this overwrites the value at an existing key
and appends the pair otherwise, preserving order. -/
def configset : Config → List Char → List Char → Config
  | [], k, v => [(k, v)]
  | p :: cfg, k, v => if p.1 = k then (k, v) :: cfg else p :: configset cfg k v

/-- Modelled from the spec: `glofrim.glofrim_lib.configget` — missing from
the source tree; looks the (normalized) attribute name up in the record. -/
def configget : Config → List Char → Option (List Char)
  | [], _ => none
  | p :: cfg, k => if p.1 = k then some p.2 else configget cfg k

/-- Source: `LFP.set_end_time` (lines 246-259), with `end_time` already in
datetime form (the string branch only parses the date) and `refdate` the
value returned by `self.get_start_time()`.  The `assert end_time > refdate`
guard rejects any end time not strictly after the start time; on success the
number of seconds between the two is stored, as a decimal integer string,
under the attribute `sim_time` (normalized to `general:sim_time`), and the
new end time is returned (`self._endTime`). -/
def set_end_time (cfg : Config) (startTime endTime : Int) :
    Except String (Int × Config) :=
  if startTime < endTime then
    let d := endTime - startTime
    let tstop := d % 86400 + d / 86400 * 86400
    .ok (endTime, configset cfg (normalizeAttr "sim_time".toList) (toString tstop).toList)
  else
    .error "InvalidTimeRangeError: end_time must exceed the model start time"

theorem configget_configset (cfg : Config) (k v : List Char) :
    configget (configset cfg k v) k = some v := by
  induction cfg with
  | nil => simp [configset, configget]
  | cons p cfg ih =>
    by_cases h : p.1 = k
    · simp [configset, configget, h]
    · simp [configset, configget, h, ih]

/-- C8: `set_end_time` fails whenever the new end time does not strictly
exceed the start time (this is the `InvalidTimeRangeError` of the spec's
taxonomy, raised as the `assert end_time > refdate`), and on success stores
under `sim_time` exactly the decimal integer string of the second count
`endTime - startTime` — the `timedelta` decomposition
`d.seconds + d.days * 86400` collapses back to the plain difference — so a
subsequent configuration lookup (hence a configuration write) sees the
override. -/
theorem set_end_time_characterization (cfg : Config) (s e : Int) :
    set_end_time cfg s e =
      (if s < e then
        .ok (e, configset cfg (normalizeAttr "sim_time".toList) (toString (e - s)).toList)
      else
        .error "InvalidTimeRangeError: end_time must exceed the model start time") ∧
    configget (configset cfg (normalizeAttr "sim_time".toList) (toString (e - s)).toList)
      (normalizeAttr "sim_time".toList) = some (toString (e - s)).toList := by
  constructor
  · by_cases h : s < e
    · have hdec : (e - s) % 86400 + (e - s) / 86400 * 86400 = e - s := by
        omega
      simp only [set_end_time, if_pos h, hdec]
    · simp [set_end_time, h]
  · exact configget_configset cfg _ _

/-!
ParConfigParser (`lfp_bmi.py`, lines 295-319).

The class is a `configparser.ConfigParser` constructed with
`comment_prefixes=('!', '/', '#')`, `inline_comment_prefixes=('!')`,
`allow_no_value=True`, `delimiters=('=')`, `strict` defaulting to `True`,
identity `optionxform` and default (`BasicInterpolation`) interpolation,
whose `before_write` hook is the identity.  Text is modelled as lists of
characters; a parameter file is a list of lines (without terminators).

`read_file` feeds the ini reader the synthetic header `[general]` followed
by each source line transformed by `'='.join(line.split()[:2])`.  The
transformed lines never start with whitespace and contain none, so of the
ini reader's behavior exactly this fragment is reachable and modelled:
blank-line/comment skipping (a comment prefix can only sit at position 0,
which also covers the inline `'!'` rule), the section-header prefix pattern
`[header]` (`SECTCRE`, a prefix match discarding the rest of the line),
option lines split at the first `'='` (with `allow_no_value=True` a line
with no delimiter is a key with value `None`; an empty key is a parsing
error), and `strict` duplicate-section/duplicate-option errors.
Continuation lines, value stripping and inline comments after whitespace
cannot occur on such input.
-/

/-- Worker of `tokens`: `acc` holds the (reversed) run of non-whitespace
characters currently being read. -/
def tokensAux : List Char → List Char → List (List Char)
  | [], acc => if acc = [] then [] else [acc.reverse]
  | c :: cs, acc =>
    if c.isWhitespace then
      if acc = [] then tokensAux cs []
      else acc.reverse :: tokensAux cs []
    else tokensAux cs (c :: acc)

/-- Python `str.split()` with no separator: the maximal runs of
non-whitespace characters. -/
def tokens (l : List Char) : List (List Char) := tokensAux l []

/-- Source: the `par2ini` generator body (line 310),
`'='.join(line.split()[:2])`. -/
def par2ini (line : List Char) : List Char :=
  match (tokens line).take 2 with
  | [] => []
  | [t1] => t1
  | t1 :: t2 :: _ => t1 ++ '=' :: t2

/-- Errors of the ini reader (`configparser` exception taxonomy restricted
to what the modelled fragment can raise). -/
inductive CfgError where
  | missingSectionHeader
  | duplicateSection (s : List Char)
  | duplicateOption (s k : List Char)
  | badOptionLine (l : List Char)
deriving DecidableEq

/-- Option table of one section: insertion-ordered key/value pairs; a
`none` value is Python `None` (a key read with no delimiter). -/
abbrev Opts := List (List Char × Option (List Char))

/-- The parser record: insertion-ordered sections with their options. -/
abbrev Secs := List (List Char × Opts)

/-- The `SECTCRE` prefix pattern `\[([^]]+)\]`: a line starting with `'['`
whose header (the run of non-`']'` characters after it) is nonempty and
closed by a `']'`; the rest of the line is discarded. -/
def sectHeader (j : List Char) : Option (List Char) :=
  match j with
  | '[' :: rest =>
    let h := rest.takeWhile (fun c => ¬ c = ']')
    if h.length ≠ 0 ∧ h.length < rest.length then some h else none
  | _ => none

/-- A full-line comment: the first character is one of the configured
comment prefixes `!`, `/`, `#` (transformed lines have no leading
whitespace). -/
def isCommentLine : List Char → Bool
  | [] => false
  | c :: _ => decide (c = '!' ∨ c = '/' ∨ c = '#')

/-- The option pattern with `delimiters=('=')` and `allow_no_value=True`:
key is everything before the first `'='` and value everything after it;
without a delimiter the whole line is a key with value `None`. -/
def splitEq (j : List Char) : List Char × Option (List Char) :=
  let k := j.takeWhile (fun c => ¬ c = '=')
  if k.length = j.length then (j, none)
  else (k, some (j.drop (k.length + 1)))

/-- Reader state: sections read so far plus the current section name
(`none` before any header — an option line there is a
`MissingSectionHeaderError`, unreachable through `read_file`). -/
structure PState where
  secs : Secs
  cur : Option (List Char)
deriving DecidableEq

def hasSection (secs : Secs) (s : List Char) : Bool :=
  secs.any (fun q => decide (q.1 = s))

def addSection (secs : Secs) (s : List Char) : Secs :=
  secs ++ [(s, [])]

def getOpts (secs : Secs) (s : List Char) : Opts :=
  match secs.find? (fun q => decide (q.1 = s)) with
  | some q => q.2
  | none => []

def hasOption (secs : Secs) (s k : List Char) : Bool :=
  (getOpts secs s).any (fun q => decide (q.1 = k))

def addOption (secs : Secs) (s k : List Char) (v : Option (List Char)) : Secs :=
  secs.map (fun q => if q.1 = s then (q.1, q.2 ++ [(k, v)]) else q)

/-- One line of the ini reader on already-transformed input: skip blanks
and comments; a section-pattern prefix opens a new section (duplicate
sections rejected, `strict=True`); otherwise an option line is split at the
first delimiter (empty keys rejected, duplicates within the section
rejected) and appended to the current section. -/
def iniStep (st : PState) (j : List Char) : Except CfgError PState :=
  if j = [] then .ok st
  else if isCommentLine j then .ok st
  else
    match sectHeader j with
    | some h =>
      if hasSection st.secs h then .error (.duplicateSection h)
      else .ok ⟨addSection st.secs h, some h⟩
    | none =>
      match st.cur with
      | none => .error .missingSectionHeader
      | some s =>
        let kv := splitEq j
        if kv.1 = [] then .error (.badOptionLine j)
        else if hasOption st.secs s kv.1 then .error (.duplicateOption s kv.1)
        else .ok ⟨addOption st.secs s kv.1 kv.2, st.cur⟩

def runLines : PState → List (List Char) → Except CfgError PState
  | st, [] => .ok st
  | st, l :: ls =>
    match iniStep st l with
    | .ok st' => runLines st' ls
    | .error e => .error e

/-- Source: `ParConfigParser.read_file` (lines 304-311): the generator
yields `[general]` and then every source line transformed by `par2ini`,
and the result is parsed as ini. -/
def read_file (lines : List (List Char)) : Except CfgError Secs :=
  match runLines ⟨[], none⟩ ("[general]".toList :: lines.map par2ini) with
  | .ok st => .ok st.secs
  | .error e => .error e

/-- Python `str(value)` applied to an option value: `None` prints as
`None`. -/
def pyStrOfValue : Option (List Char) → List Char
  | none => "None".toList
  | some v => v

/-- The `str(value).replace('\n', '\n\t')` continuation re-indent of
`_write_section`. -/
def replNl : List Char → List Char
  | [] => []
  | c :: cs => if c = '\n' then '\n' :: '\t' :: replNl cs else c :: replNl cs

/-- Source: `ParConfigParser._write_section` (lines 313-319): for each
stored pair, the line `KEY VALUE` (a single separating space, newlines in
the value re-indented with a tab), then one blank line. -/
def write_section (items : Opts) : List (List Char) :=
  items.map (fun q => q.1 ++ ' ' :: replNl (pyStrOfValue q.2)) ++ [[]]

/-- Source: `ConfigParser.write` with the overridden `_write_section` and no
constructor defaults: every section in order, flat (no headers). -/
def writeConfig (secs : Secs) : List (List Char) :=
  (secs.map (fun q => write_section q.2)).flatten

instance instDecEqExcept {ε α : Type} [DecidableEq ε] [DecidableEq α] :
    DecidableEq (Except ε α) := fun a b =>
  match a, b with
  | .ok x, .ok y =>
    if h : x = y then isTrue (by rw [h]) else isFalse (fun hc => by cases hc; exact h rfl)
  | .error x, .error y =>
    if h : x = y then isTrue (by rw [h]) else isFalse (fun hc => by cases hc; exact h rfl)
  | .ok _, .error _ => isFalse (fun hc => by cases hc)
  | .error _, .ok _ => isFalse (fun hc => by cases hc)

/-- C5 counterexample: the parameter file consisting of the single line `a`
— a non-comment, non-blank line with exactly one whitespace-separated token
— parses successfully (`allow_no_value=True` yields the key `a` with value
`None`); no error of any kind is raised, contradicting the claimed
`FormatError`. -/
theorem single_token_line_parses :
    read_file ["a".toList] =
      .ok [("general".toList, [("a".toList, none)])] := by
  decide

theorem tokensAux_mem_ne_nil (l : List Char) :
    ∀ acc t, t ∈ tokensAux l acc → t ≠ [] := by
  induction l with
  | nil =>
    intro acc t ht
    rw [tokensAux] at ht
    by_cases h : acc = []
    · simp [h] at ht
    · simp only [if_neg h, List.mem_singleton] at ht
      subst ht
      simpa using h
  | cons c cs ih =>
    intro acc t ht
    rw [tokensAux] at ht
    by_cases hws : c.isWhitespace
    · rw [if_pos hws] at ht
      by_cases h : acc = []
      · rw [if_pos h] at ht
        exact ih [] t ht
      · rw [if_neg h] at ht
        rcases List.mem_cons.mp ht with rfl | ht'
        · simpa using h
        · exact ih [] t ht'
    · rw [if_neg hws] at ht
      exact ih (c :: acc) t ht

theorem takeWhile_all_eq (p : Char → Bool) (l : List Char) (h : ∀ c ∈ l, p c = true) :
    l.takeWhile p = l := by
  induction l with
  | nil => rfl
  | cons c cs ih =>
    simp [List.takeWhile_cons, h c (by simp), ih (fun d hd => h d (by simp [hd]))]

/-- C5 (amended): a non-comment, non-blank line with fewer than two
whitespace-separated tokens does NOT make parsing fail: with
`allow_no_value=True`, a line whose single token is a well-formed key (no
`'='`, not matching the ini section pattern) is accepted as that key with
value `None`. -/
theorem single_token_line_accepted (l t : List Char)
    (htok : tokens l = [t]) (hcomment : isCommentLine t = false)
    (hsect : sectHeader t = none) (heq : ∀ c ∈ t, ¬ c = '=') :
    read_file [l] = .ok [("general".toList, [(t, none)])] := by
  have htne : t ≠ [] := tokensAux_mem_ne_nil l [] t (by rw [tokens] at htok; rw [htok]; simp)
  have hpar : par2ini l = t := by
    simp [par2ini, htok]
  have hsplit : splitEq t = (t, none) := by
    have hall : t.takeWhile (fun c => ¬ c = '=') = t :=
      takeWhile_all_eq _ t (fun c hc => by simpa using heq c hc)
    simp only [splitEq, hall]
    simp
  have h1 : iniStep ⟨[], none⟩ "[general]".toList =
      .ok ⟨[("general".toList, [])], some "general".toList⟩ := by decide
  have h2 : iniStep ⟨[("general".toList, [])], some "general".toList⟩ t =
      .ok ⟨[("general".toList, [(t, none)])], some "general".toList⟩ := by
    simp [iniStep, htne, hcomment, hsect, hsplit, hasOption, getOpts, addOption]
  have hrun : runLines ⟨[], none⟩ ("[general]".toList :: [t]) =
      .ok ⟨[("general".toList, [(t, none)])], some "general".toList⟩ := by
    simp only [runLines, h1, h2]
  simp only [read_file, List.map, hpar, hrun]

theorem single_token_line_accepted_witness :
    tokens "debug".toList = ["debug".toList] ∧
    isCommentLine "debug".toList = false ∧
    sectHeader "debug".toList = none ∧
    (∀ c ∈ "debug".toList, ¬ c = '=') ∧
    read_file ["debug".toList] =
      .ok [("general".toList, [("debug".toList, none)])] :=
  ⟨by decide, by decide, by decide, by decide,
   single_token_line_accepted "debug".toList "debug".toList
     (by decide) (by decide) (by decide) (by decide)⟩

theorem tokensAux_nonws_run (k : List Char) (hk : ∀ c ∈ k, c.isWhitespace = false) :
    ∀ (acc rest : List Char), tokensAux (k ++ rest) acc = tokensAux rest (k.reverse ++ acc) := by
  induction k with
  | nil => intro acc rest; simp
  | cons c cs ih =>
    intro acc rest
    have hc : c.isWhitespace = false := hk c (by simp)
    rw [List.cons_append, tokensAux, if_neg (by simp [hc])]
    rw [ih (fun d hd => hk d (by simp [hd])) (c :: acc) rest]
    simp [List.reverse_cons, List.append_assoc]

theorem tokens_single (v : List Char) (hv : v ≠ [])
    (hvw : ∀ c ∈ v, c.isWhitespace = false) : tokensAux v [] = [v] := by
  have h := tokensAux_nonws_run v hvw [] []
  rw [List.append_nil] at h
  rw [h, tokensAux, if_neg (by simpa using hv)]
  simp

theorem tokens_pair (k v : List Char) (hk : k ≠ []) (hv : v ≠ [])
    (hkw : ∀ c ∈ k, c.isWhitespace = false) (hvw : ∀ c ∈ v, c.isWhitespace = false) :
    tokens (k ++ ' ' :: v) = [k, v] := by
  rw [tokens, tokensAux_nonws_run k hkw [] (' ' :: v)]
  rw [tokensAux, if_pos (by decide), if_neg (by simpa using hk)]
  rw [tokens_single v hv hvw]
  simp

theorem replNl_eq_self (v : List Char) (h : ∀ c ∈ v, c.isWhitespace = false) :
    replNl v = v := by
  induction v with
  | nil => rfl
  | cons c cs ih =>
    have hc : ¬ c = '\n' := by
      intro hcc
      subst hcc
      exact absurd (h '\n' (by simp)) (by decide)
    rw [replNl, if_neg hc, ih (fun d hd => h d (by simp [hd]))]

theorem takeWhile_neq_append (k v : List Char) (hk : ∀ c ∈ k, ¬ c = '=') :
    (k ++ '=' :: v).takeWhile (fun c => ¬ c = '=') = k := by
  induction k with
  | nil =>
    rw [List.nil_append, List.takeWhile_cons, if_neg (by decide)]
  | cons c cs ih =>
    rw [List.cons_append, List.takeWhile_cons,
      if_pos (by simpa using hk c (by simp)),
      ih (fun d hd => hk d (by simp [hd]))]

theorem splitEq_append (k v : List Char) (hk : ∀ c ∈ k, ¬ c = '=') :
    splitEq (k ++ '=' :: v) = (k, some v) := by
  rw [splitEq]
  simp only [takeWhile_neq_append k v hk]
  have hlen : ¬ k.length = (k ++ '=' :: v).length := by
    simp only [List.length_append, List.length_cons]
    omega
  rw [if_neg hlen]
  have hdrop : (k ++ '=' :: v).drop (k.length + 1) = v := by
    have h1 : k ++ '=' :: v = (k ++ ['=']) ++ v := by simp
    have h2 : k.length + 1 = (k ++ ['=']).length := by simp
    rw [h1, h2, List.drop_left]
  rw [hdrop]

theorem isCommentLine_append (k r : List Char) (hk : k ≠ []) :
    isCommentLine (k ++ r) = isCommentLine k := by
  cases k with
  | nil => exact absurd rfl hk
  | cons c cs => rfl

/-- Well-formedness of one stored pair of the `general` section, as the
parse of a section-free file whose content lines carry at least two tokens
produces them: a nonempty, whitespace-free, delimiter-free key that does
not start with a comment prefix; a present, nonempty, whitespace-free
value; and a key/value combination whose rejoined `KEY=VALUE` line does not
match the ini section pattern. -/
def GoodPair (p : List Char × Option (List Char)) : Prop :=
  p.1 ≠ [] ∧ (∀ c ∈ p.1, c.isWhitespace = false) ∧ (∀ c ∈ p.1, ¬ c = '=') ∧
  isCommentLine p.1 = false ∧
  p.2 ≠ none ∧ pyStrOfValue p.2 ≠ [] ∧
  (∀ c ∈ pyStrOfValue p.2, c.isWhitespace = false) ∧
  sectHeader (p.1 ++ '=' :: pyStrOfValue p.2) = none

instance (p : List Char × Option (List Char)) : Decidable (GoodPair p) := by
  unfold GoodPair
  infer_instance

theorem runLines_write_replay :
    ∀ (os done : Opts), (∀ p ∈ os, GoodPair p) →
      ((done ++ os).map Prod.fst).Nodup →
      runLines ⟨[("general".toList, done)], some "general".toList⟩
        (os.map (fun q => par2ini (q.1 ++ ' ' :: replNl (pyStrOfValue q.2))) ++ [[]]) =
        .ok ⟨[("general".toList, done ++ os)], some "general".toList⟩ := by
  intro os
  induction os with
  | nil =>
    intro done hg hnd
    simp only [List.map_nil, List.nil_append, List.append_nil]
    simp [runLines, iniStep]
  | cons p os ih =>
    intro done hg hnd
    obtain ⟨hkne, hkws, hkeq, hkcom, hvsome, hvne, hvws, hsect⟩ := hg p (by simp)
    obtain ⟨v, hv⟩ : ∃ v, p.2 = some v := by
      cases hpv : p.2 with
      | none => exact absurd hpv hvsome
      | some v => exact ⟨v, rfl⟩
    have hvval : pyStrOfValue p.2 = v := by rw [hv]; rfl
    rw [hvval] at hvne hvws hsect
    have hline : p.1 ++ ' ' :: replNl (pyStrOfValue p.2) = p.1 ++ ' ' :: v := by
      rw [hvval, replNl_eq_self v hvws]
    have hpar : par2ini (p.1 ++ ' ' :: replNl (pyStrOfValue p.2)) = p.1 ++ '=' :: v := by
      rw [hline, par2ini, tokens_pair p.1 v hkne hvne hkws hvws]
      rfl
    have hknotin : p.1 ∉ done.map Prod.fst := by
      rw [List.map_append] at hnd
      have hdisj := (List.nodup_append.mp hnd).2.2
      intro hmem
      exact hdisj hmem (by simp)
    have hopts : getOpts [("general".toList, done)] "general".toList = done := by
      simp [getOpts]
    have hopt : hasOption [("general".toList, done)] "general".toList p.1 = false := by
      rw [hasOption, hopts]
      rw [List.any_eq_false]
      intro q hq
      simp only [decide_eq_true_eq]
      intro hqe
      exact hknotin (hqe ▸ List.mem_map_of_mem Prod.fst hq)
    have hstep : iniStep ⟨[("general".toList, done)], some "general".toList⟩
        (p.1 ++ '=' :: v) =
        .ok ⟨[("general".toList, done ++ [p])], some "general".toList⟩ := by
      rw [iniStep, if_neg (by simp [hkne]), if_neg (by rw [isCommentLine_append _ _ hkne, hkcom]; simp)]
      rw [hsect]
      simp only []
      rw [splitEq_append p.1 v hkeq]
      rw [if_neg (by simpa using hkne), hopt]
      simp only [Bool.false_eq_true, if_false]
      have hp2 : (p.1, some v) = p := by
        rw [← hv]
      have haddp : addOption [("general".toList, done)] "general".toList p.1 (some v) =
          [("general".toList, done ++ [p])] := by
        simp [addOption, hp2]
      rw [haddp]
    have hnd' : (((done ++ [p]) ++ os).map Prod.fst).Nodup := by
      have heq : (done ++ [p]) ++ os = done ++ p :: os := by simp
      rw [heq]
      exact hnd
    have hihres := ih (done ++ [p]) (fun q hq => hg q (by simp [hq])) hnd'
    have heq2 : (done ++ [p]) ++ os = done ++ p :: os := by simp
    rw [heq2] at hihres
    simp only [List.map_cons, List.cons_append, hpar, runLines, hstep]
    exact hihres

theorem par2ini_nil : par2ini [] = [] := rfl

/-- C4 (amended): parse–serialize–parse is the identity on the semantic
key/value record for section-free, well-formed parameter files: whenever
parsing a text yields exactly the synthetic `general` section, all of whose
pairs are well formed (`GoodPair` — in particular every value is present,
i.e. every content line carried at least two whitespace-separated tokens,
and no pair's rejoined `KEY=VALUE` line matches the ini section pattern)
with pairwise-distinct keys, parsing the serialization of that record
returns the identical record.  Dropped from the original claim is only what
the counterexample forces: a valid-looking line whose first token has the
shape `[header]` is consumed as an ini section header, after which the law
fails. -/
theorem parse_write_parse (lines : List (List Char)) (os : Opts)
    (_hp : read_file lines = .ok [("general".toList, os)])
    (hg : ∀ p ∈ os, GoodPair p)
    (hnd : (os.map Prod.fst).Nodup) :
    read_file (writeConfig [("general".toList, os)]) = .ok [("general".toList, os)] := by
  have hw : (writeConfig [("general".toList, os)]).map par2ini =
      os.map (fun q => par2ini (q.1 ++ ' ' :: replNl (pyStrOfValue q.2))) ++ [[]] := by
    simp [writeConfig, write_section, List.map_append, List.map_map, Function.comp, par2ini_nil]
  have hrep := runLines_write_replay os [] hg (by simpa using hnd)
  rw [List.nil_append] at hrep
  have h1 : iniStep ⟨[], none⟩ "[general]".toList =
      .ok ⟨[("general".toList, [])], some "general".toList⟩ := by decide
  simp only [read_file, hw, runLines, h1, hrep]

/-- C4 counterexample: the three-line file `a 1` / `[x] y` / `a 2` is a
flat parameter file in which every content line has two
whitespace-separated tokens, and it parses fine — but its second line,
re-joined to `[x]=y`, matches the ini section pattern, so `a 2` lands in a
section `x`.  Serialization flattens all sections without headers, and
re-parsing the serialized text fails with a duplicate-option error on `a`:
`parse(serialize(parse(text)))` is not `parse(text)` (it is not even a
record). -/
theorem parse_write_parse_counterexample :
    read_file ["a 1".toList, "[x] y".toList, "a 2".toList] =
      .ok [("general".toList, [("a".toList, some "1".toList)]),
           ("x".toList, [("a".toList, some "2".toList)])] ∧
    read_file (writeConfig
        [("general".toList, [("a".toList, some "1".toList)]),
         ("x".toList, [("a".toList, some "2".toList)])]) =
      .error (CfgError.duplicateOption "general".toList "a".toList) := by
  constructor
  · decide
  · decide

/-- Concrete well-formed record, as parsed from a two-line parameter
file. -/
def osW : Opts :=
  [("sim_time".toList, some "864000".toList), ("DEMfile".toList, some "dem.tif".toList)]

theorem parse_write_parse_witness :
    read_file ["sim_time 864000".toList, "DEMfile dem.tif".toList] =
      .ok [("general".toList, osW)] ∧
    (∀ p ∈ osW, GoodPair p) ∧ (osW.map Prod.fst).Nodup ∧
    read_file (writeConfig [("general".toList, osW)]) = .ok [("general".toList, osW)] :=
  ⟨by decide, by decide, by decide,
   parse_write_parse ["sim_time 864000".toList, "DEMfile dem.tif".toList] osW
     (by decide) (by decide) (by decide)⟩
